import Mathlib

/-!
# Verification of the Search Job Lifecycle & Real-Time Update Client

Shallow embedding of the shopping-comparator front-end core:

* the product/filter data model (`frontend/src/types/api.ts`),
* the submission form handler (`SearchForm.tsx`, `handleSubmit`),
* the app-level job lifecycle (`App.tsx`: `handleSearch`, `ws.onmessage`,
  `addLog`),
* the query engine (`ResultsTable.tsx`: `filteredAndSortedProducts`,
  `paginatedProducts`).

Modelling conventions:

* JavaScript numbers are modelled as `Int` (prices, ratings, confidence are
  used only through order comparisons and subtraction here).
* Strings are Lean `String`s; `toLowerCase`/`trim`/`includes` are modelled
  at the character-list level by `jsToLower`/`jsTrim`/`jsIncludes`.
  `localeCompare` is modelled as the three-valued comparison induced by the
  linear order on `String`.
* React `useState` setters update the state cell that the *next* render
  reads; the local `const` binding of the current render is unchanged.  The
  handlers are therefore pure functions `state → (state, output)`.
* Timestamps produced by `new Date().toLocaleTimeString()` are threaded as an
  explicit `ts : String` argument of each handler invocation.
* `Array.prototype.sort` (stable per ECMAScript) is modelled as a stable
  insertion sort `stableSortJS` that processes the array left to right and
  inserts each element behind all elements the comparator does not place it
  strictly before.
-/

namespace ShoppingComparator

/-! ## Data model (`types/api.ts`) -/

/-- A TypeScript `string | string[]` union, used by `SearchFilters` for the
`size`, `material` and `site` keys. -/
inductive StrOrList where
  | one : String → StrOrList
  | many : List String → StrOrList
deriving DecidableEq, Repr

/-- `SearchFilters` from `types/api.ts`; every key is optional. -/
structure SearchFilters where
  size : Option StrOrList := none
  material : Option StrOrList := none
  min_price : Option Int := none
  max_price : Option Int := none
  min_rating : Option Int := none
  color : Option String := none
  category : Option String := none
  site : Option StrOrList := none
deriving DecidableEq, Repr

/-- `Product` from `types/api.ts` (wire shape; optional keys are `Option`). -/
structure Product where
  title : String
  name : Option String := none
  price : Int
  size : Option String := none
  material : Option String := none
  image_url : String := ""
  product_url : String := ""
  url : Option String := none
  site : String
  confidence : Int := 0
  productId : Option String := none
  category : Option String := none
  rating : Option Int := none
  reviews_count : Option Int := none
deriving DecidableEq, Repr

/-- `SearchRequest` from `types/api.ts`. -/
structure SearchRequest where
  prompt : String
  sites : List String
  filters : Option SearchFilters := none
deriving DecidableEq, Repr

/-! ## String helpers -/

/-- JavaScript `s.trim()`: strip leading and trailing whitespace (modelled at
the character level). -/
def jsTrim (s : String) : String :=
  ⟨((s.data.dropWhile Char.isWhitespace).reverse.dropWhile Char.isWhitespace).reverse⟩

/-- JavaScript `s.toLowerCase()` (modelled at the character level). -/
def jsToLower (s : String) : String :=
  ⟨s.data.map Char.toLower⟩

/-- JavaScript `hay.includes(needle)`: `needle` occurs as a contiguous
substring of `hay` (at the character level). -/
def jsIncludes (hay needle : String) : Bool :=
  (List.range (hay.data.length + 1)).any fun i =>
    needle.data.isPrefixOf (hay.data.drop i)

/-- `addLog` in `App.tsx` renders a log line as `[timestamp] message`. -/
def fmtLog (ts msg : String) : String := "[" ++ ts ++ "] " ++ msg

/-! ## App-level state (`App.tsx` `useState` cells) -/

/-- Sort direction (`"asc" | "desc"`). -/
inductive SortDir where
  | asc
  | desc
deriving DecidableEq, Repr

/-- The sortable product fields (`keyof Product` as far as the comparator can
observe them). -/
inductive SortField where
  | title | name | price | size | material | image_url | product_url
  | url | site | confidence | productId | category | rating | reviews_count
deriving DecidableEq, Repr

/-- The `useState` cells of `App.tsx` that the lifecycle logic touches. -/
structure AppState where
  products : List Product
  currentJobId : Option String
  jobStatus : String
  logs : List String
  isConnected : Bool
  isLoading : Bool
  sortField : SortField
  sortDirection : SortDir
deriving DecidableEq, Repr

/-- Initial `App.tsx` state. -/
def initialAppState : AppState :=
  { products := [], currentJobId := none, jobStatus := "idle", logs := []
    isConnected := false, isLoading := false
    sortField := .price, sortDirection := .asc }

/-- `addLog` from `App.tsx`: append one timestamped line. -/
def addLog (ts msg : String) (st : AppState) : AppState :=
  { st with logs := st.logs ++ [fmtLog ts msg] }

/-! ## WebSocket message handling (`App.tsx`, `ws.onmessage`) -/

/-- A decoded inbound channel message (`Partial<JobStatusResponse>`): each of
the three keys may be absent. -/
structure WsMessage where
  status : Option String := none
  results : Option (List Product) := none
  logs : Option (List String) := none
deriving DecidableEq, Repr

/-- The status-specific narration lines appended at the end of
`ws.onmessage` (`data.status === "running" | "completed" | "failed"`). -/
def statusNarr : Option String → List String
  | some "running" => ["Search in progress..."]
  | some "completed" => ["Search completed successfully"]
  | some "failed" => ["Search failed"]
  | _ => []

/-- `ws.onmessage` on a successfully parsed message: `if (data.status)`
overwrites the status (JS truthiness: the empty string is falsy); a `results`
array replaces the product list and logs the count; `logs` lines are appended
in order; finally the status narration is appended. -/
def onMessage (ts : String) (st : AppState) (msg : WsMessage) : AppState :=
  let st :=
    match msg.status with
    | some s => if s = "" then st else { st with jobStatus := s }
    | none => st
  let st :=
    match msg.results with
    | some rs =>
        addLog ts ("Found " ++ toString rs.length ++ " products")
          { st with products := rs }
    | none => st
  let st :=
    match msg.logs with
    | some ls => { st with logs := st.logs ++ ls.map (fmtLog ts) }
    | none => st
  { st with logs := st.logs ++ (statusNarr msg.status).map (fmtLog ts) }

/-! ## Submission (`App.tsx`, `handleSearch`) -/

/-- Outcome of the `fetch` to the submission endpoint: a 2xx response with a
parsed `{ job_id }` body, or any failure (non-2xx, network error, malformed
body — all reach the single `catch`). -/
inductive FetchOutcome where
  | ok : String → FetchOutcome
  | err : String → FetchOutcome
deriving DecidableEq, Repr

/-- The part of `handleSearch` that runs before the `fetch` starts:
`setIsLoading(true); setProducts([]); setLogs([]); setJobStatus("pending");
addLog("Starting search...")`. -/
def preSubmit (ts : String) (st : AppState) : AppState :=
  addLog ts "Starting search..."
    { st with isLoading := true, products := [], logs := [], jobStatus := "pending" }

/-- The part of `handleSearch` that runs after the `fetch` resolves: on
success store the job id and log it; on failure set status `failed` and log
the error; `finally` clears `isLoading`. -/
def postFetch (ts : String) (st : AppState) : FetchOutcome → AppState
  | .ok jobId =>
      { addLog ts ("Search job created: " ++ jobId)
          { st with currentJobId := some jobId } with isLoading := false }
  | .err emsg =>
      { addLog ts ("Search failed: " ++ emsg)
          { st with jobStatus := "failed" } with isLoading := false }

/-- `handleSearch` as a whole: the pre-fetch state mutations, then the
continuation on the fetch outcome. -/
def handleSearch (ts : String) (st : AppState) (outcome : FetchOutcome) : AppState :=
  postFetch ts (preSubmit ts st) outcome

/-! ## Form submission (`SearchForm.tsx`, `handleSubmit`) -/

/-- The `useState` cells of `SearchForm.tsx` read by `handleSubmit`. -/
structure FormState where
  prompt : String
  selectedSites : List String
  filters : SearchFilters
deriving DecidableEq, Repr

/-- The validation failure surfaced by the destructive "Missing prompt"
toast. -/
inductive ValidationError where
  | missingPrompt
deriving DecidableEq, Repr

/-- `Object.keys(filters).length > 0` for our filter record: some key is
present. -/
def filtersNonEmpty (f : SearchFilters) : Bool :=
  f.size.isSome || f.material.isSome || f.min_price.isSome || f.max_price.isSome
    || f.min_rating.isSome || f.color.isSome || f.category.isSome || f.site.isSome

/-- `handleSubmit` from `SearchForm.tsx`.  An empty/whitespace-only prompt
aborts with the validation toast before anything else.  Otherwise, if no
sites are selected, `setSelectedSites(["myntra", "meesho"])` schedules the
default for the next render — but the `request` object built immediately
afterwards reads this render's `selectedSites` binding, which is unchanged.
Returns the request handed to `onSearch` together with the form state the
next render sees. -/
def handleSubmit (st : FormState) : Except ValidationError (SearchRequest × FormState) :=
  if jsTrim st.prompt = "" then
    .error .missingPrompt
  else
    let nextSites :=
      if st.selectedSites.isEmpty then ["myntra", "meesho"] else st.selectedSites
    let request : SearchRequest :=
      { prompt := jsTrim st.prompt
        sites := st.selectedSites
        filters := if filtersNonEmpty st.filters then some st.filters else none }
    .ok (request, { st with selectedSites := nextSites })

/-- The requests actually handed to `onSearch` (and hence to the network) by
one invocation of `handleSubmit`: none on validation failure. -/
def submittedRequests (st : FormState) : List SearchRequest :=
  match handleSubmit st with
  | .error _ => []
  | .ok (req, _) => [req]

/-- The form-to-app pipeline for one submit click: `handleSubmit` either
aborts (the app state is untouched, no fetch happens) or hands the request to
`onSearch = handleSearch`. -/
def submitFlow (ts : String) (form : FormState) (app : AppState)
    (outcome : FetchOutcome) : AppState :=
  match handleSubmit form with
  | .error _ => app
  | .ok _ => handleSearch ts app outcome

/-! ## Query engine: filtering (`ResultsTable.tsx`, `filteredAndSortedProducts`) -/

/-- Case-insensitive substring match of the category filter against the
product's category field or its title
(`p.category?.toLowerCase().includes(c) || p.title?.toLowerCase().includes(c)`). -/
def categoryMatch (c : String) (p : Product) : Bool :=
  (match p.category with
    | some cat => jsIncludes (jsToLower cat) (jsToLower c)
    | none => false)
  || jsIncludes (jsToLower p.title) (jsToLower c)

/-- Case-insensitive substring match of one site-filter value against the
product's site identifier (`p.site?.toLowerCase().includes(s.toLowerCase())`). -/
def siteMatch (p : Product) (s : String) : Bool :=
  jsIncludes (jsToLower p.site) (jsToLower s)

/-- The filtering stage of `filteredAndSortedProducts`: four successive
`Array.filter` passes.  `min_price`/`max_price` are guarded by
`!== undefined`; `category` and a single-string `site` are guarded by JS
truthiness (the empty string is falsy); a `site` array uses
`Array.some` over its elements. -/
def filterProducts (filters : SearchFilters) (products : List Product) : List Product :=
  let f1 :=
    match filters.min_price with
    | some m => products.filter fun p => m ≤ p.price
    | none => products
  let f2 :=
    match filters.max_price with
    | some m => f1.filter fun p => p.price ≤ m
    | none => f1
  let f3 :=
    match filters.category with
    | some c => if c = "" then f2 else f2.filter (categoryMatch c)
    | none => f2
  match filters.site with
  | some (.one s) => if s = "" then f3 else f3.filter fun p => siteMatch p s
  | some (.many l) => f3.filter fun p => l.any (siteMatch p)
  | none => f3

/-- Truth of the `min_price` predicate for one product (absent bound: no
constraint). -/
def minPriceOk (filters : SearchFilters) (p : Product) : Bool :=
  match filters.min_price with
  | some m => m ≤ p.price
  | none => true

/-- Truth of the `max_price` predicate for one product. -/
def maxPriceOk (filters : SearchFilters) (p : Product) : Bool :=
  match filters.max_price with
  | some m => p.price ≤ m
  | none => true

/-- Truth of the `category` predicate for one product (absent or empty — JS
falsy — category: no constraint). -/
def categoryOk (filters : SearchFilters) (p : Product) : Bool :=
  match filters.category with
  | some c => if c = "" then true else categoryMatch c p
  | none => true

/-- Truth of the `site` predicate for one product: a single non-empty value
must match; a list matches if ANY element matches. -/
def siteOk (filters : SearchFilters) (p : Product) : Bool :=
  match filters.site with
  | some (.one s) => if s = "" then true else siteMatch p s
  | some (.many l) => l.any (siteMatch p)
  | none => true

/-! ## Query engine: sorting -/

/-- The value of a product field as the JS comparator sees it: a string, a
number, or `undefined`. -/
inductive FieldVal where
  | str : String → FieldVal
  | num : Int → FieldVal
  | missing : FieldVal
deriving DecidableEq, Repr

/-- `a[sortField]` for each field of `Product`. -/
def getField : SortField → Product → FieldVal
  | .title, p => .str p.title
  | .name, p => (p.name.map .str).getD .missing
  | .price, p => .num p.price
  | .size, p => (p.size.map .str).getD .missing
  | .material, p => (p.material.map .str).getD .missing
  | .image_url, p => .str p.image_url
  | .product_url, p => .str p.product_url
  | .url, p => (p.url.map .str).getD .missing
  | .site, p => .str p.site
  | .confidence, p => .num p.confidence
  | .productId, p => (p.productId.map .str).getD .missing
  | .category, p => (p.category.map .str).getD .missing
  | .rating, p => (p.rating.map .num).getD .missing
  | .reviews_count, p => (p.reviews_count.map .num).getD .missing

/-- Whether `a[sortField]` is defined (not `null`/`undefined`). -/
def hasField (f : SortField) (p : Product) : Bool :=
  match getField f p with
  | .missing => false
  | _ => true

/-- Model of `String.prototype.localeCompare`: the sign of the comparison in
the linear order on strings. -/
def localeCompare (a b : String) : Int :=
  if a < b then -1 else if b < a then 1 else 0

/-- The comparator passed to `Array.sort` in `filteredAndSortedProducts`:
an `undefined` left value returns `1` and an `undefined` right value returns
`-1` *before* the direction is considered; otherwise strings compare by
`localeCompare`, numbers by subtraction, anything else as `0`, and the
descending direction negates that comparison value. -/
def jsCompare (dir : SortDir) (f : SortField) (a b : Product) : Int :=
  let av := getField f a
  let bv := getField f b
  if av = .missing then 1
  else if bv = .missing then -1
  else
    let c :=
      match av, bv with
      | .str x, .str y => localeCompare x y
      | .num x, .num y => x - y
      | _, _ => 0
    match dir with
    | .asc => c
    | .desc => -c

/-- One step of the stable sort: insert `x` behind every element the
comparator does not place it strictly before. -/
def insertJS (cmp : α → α → Int) (x : α) : List α → List α
  | [] => [x]
  | y :: ys => if cmp x y < 0 then x :: y :: ys else y :: insertJS cmp x ys

/-- Left-to-right driver of the stable sort. -/
def sortGo (cmp : α → α → Int) (acc : List α) : List α → List α
  | [] => acc
  | x :: xs => sortGo cmp (insertJS cmp x acc) xs

/-- Stable sort model of `Array.prototype.sort` with a three-way comparator:
elements are taken in input order and each is inserted behind all elements it
does not strictly precede, so equal elements keep their relative order. -/
def stableSortJS (cmp : α → α → Int) (l : List α) : List α :=
  sortGo cmp [] l

/-- The sorting stage of `filteredAndSortedProducts`: sort only when a sort
field is selected. -/
def sortProducts (sortField : Option SortField) (dir : SortDir)
    (l : List Product) : List Product :=
  match sortField with
  | some f => stableSortJS (jsCompare dir f) l
  | none => l

/-! ## Query engine: pagination (`paginatedProducts`) -/

/-- ECMAScript `Array.prototype.slice(start, end)`: negative indices count
from the end, and both indices are clamped to `[0, length]`. -/
def jsSlice (l : List α) (start stop : Int) : List α :=
  let len : Int := l.length
  let s := if start < 0 then max (len + start) 0 else min start len
  let e := if stop < 0 then max (len + stop) 0 else min stop len
  (l.take e.toNat).drop s.toNat

/-- `paginatedProducts`: `slice((page-1)*itemsPerPage, (page-1)*itemsPerPage
+ itemsPerPage)` on the filtered-and-sorted list. -/
def paginate (l : List α) (itemsPerPage page : Nat) : List α :=
  let startIndex : Int := ((page : Int) - 1) * itemsPerPage
  jsSlice l startIndex (startIndex + itemsPerPage)

/-- `totalPages = Math.ceil(length / itemsPerPage)` on naturals. -/
def totalPages (len itemsPerPage : Nat) : Nat :=
  (len + itemsPerPage - 1) / itemsPerPage

/-- The run of products whose sort field is defined, in list order. -/
def definedRun (f : SortField) (l : List Product) : List Product :=
  l.filter (hasField f)

/-- The products whose sort field is null/absent, in list order. -/
def undefRun (f : SortField) (l : List Product) : List Product :=
  l.filter fun p => !(hasField f p)

/-- The C6 claim, as stated: sorting ascending and then sorting the result
descending reverses exactly the defined run, with the null products staying
at the end. -/
def claimC6 (f : SortField) (R : List Product) : Prop :=
  sortProducts (some f) SortDir.desc (sortProducts (some f) SortDir.asc R) =
    (definedRun f (sortProducts (some f) SortDir.asc R)).reverse ++
      undefRun f (sortProducts (some f) SortDir.asc R)

/-! ## Concrete fixtures used by witnesses and counterexamples -/

/-- A concrete product as in the spec's scenario (`{title:"Red Shirt",
price:499, site:"myntra"}`). -/
def sampleProduct : Product := { title := "Red Shirt", price := 499, site := "myntra" }

/-- An app state whose job has reached the terminal status `completed`. -/
def completedState : AppState := { initialAppState with jobStatus := "completed" }

/-- A status-only channel message carrying a regression to `running`. -/
def runningMsg : WsMessage := { status := some "running" }

/-- A result-bearing channel message that also carries a status and a log
line. -/
def resultsMsg : WsMessage :=
  { status := some "running", results := some [sampleProduct], logs := some ["scraping myntra"] }

/-- A product without a rating. -/
def unratedProduct : Product := { title := "A", price := 1, site := "myntra" }

/-- A product with a rating. -/
def ratedProduct : Product :=
  { title := "B", price := 2, site := "meesho", rating := some 5 }

/-- Two products with equal prices but different titles (a price tie). -/
def tieProduct1 : Product := { title := "a", price := 100, site := "s1" }

/-- See `tieProduct1`. -/
def tieProduct2 : Product := { title := "b", price := 100, site := "s2" }

/-- A form state with a whitespace-only prompt. -/
def blankPromptForm : FormState :=
  { prompt := "   ", selectedSites := ["myntra"], filters := {} }

/-- A form state with a valid prompt and no selected sites. -/
def noSitesForm : FormState :=
  { prompt := "red shirt", selectedSites := [], filters := {} }

end ShoppingComparator

namespace ShoppingComparator

/-! ## C1 — status events and the monotonic-transition claim -/

/-- C1 (counterexample): the claim says job status never leaves a terminal
state, and that an out-of-order regression must at least be logged as an
anomaly rather than silently accepted.  On a live job whose status is the
terminal `completed`, the handler applies an inbound `running` status anyway:
the status leaves the terminal state, and the only log line appended is the
ordinary "Search in progress..." narration — no anomaly entry exists. -/
theorem C1_regression_leaves_terminal_state :
    (onMessage "10:00:00" completedState runningMsg).jobStatus = "running" ∧
    (onMessage "10:00:00" completedState runningMsg).jobStatus ≠ "completed" ∧
    (onMessage "10:00:00" completedState runningMsg).logs =
      completedState.logs ++ [fmtLog "10:00:00" "Search in progress..."] := by
  refine ⟨rfl, by decide, rfl⟩

/-- C1 (amended): the handler enforces no monotonicity at all — any non-empty
status value carried by a message overwrites the job status unconditionally
(last write wins, including regressions out of terminal states), and for a
status-only message the only log lines appended are the standard narration
for `running`/`completed`/`failed`; no anomaly entry is ever produced. -/
theorem C1_status_applied_unconditionally (ts : String) (st : AppState)
    (msg : WsMessage) (s : String) (hs : msg.status = some s) (hne : s ≠ "")
    (hr : msg.results = none) (hl : msg.logs = none) :
    onMessage ts st msg =
      { st with jobStatus := s, logs := st.logs ++ (statusNarr (some s)).map (fmtLog ts) } := by
  rcases msg with ⟨s?, r?, l?⟩
  simp only [WsMessage.status] at hs
  simp only [WsMessage.results] at hr
  simp only [WsMessage.logs] at hl
  subst hs; subst hr; subst hl
  simp [onMessage, hne]

/-- Witness for `C1_status_applied_unconditionally` at the concrete
regression input. -/
theorem C1_status_applied_unconditionally_witness :
    onMessage "10:00:00" completedState runningMsg =
      { completedState with
        jobStatus := "running"
        logs := completedState.logs ++ (statusNarr (some "running")).map (fmtLog "10:00:00") } :=
  C1_status_applied_unconditionally "10:00:00" completedState runningMsg "running"
    rfl (by decide) rfl rfl

/-! ## C2 — empty prompt: no I/O, `ValidationError`, state untouched -/

/-- C2: submitting with an empty or whitespace-only prompt fails with the
validation error, hands no request to the network, and leaves the app state
(job, results, logs) exactly as it was. -/
theorem C2_empty_prompt_no_io (form : FormState) (h : jsTrim form.prompt = "") :
    handleSubmit form = .error .missingPrompt ∧
    submittedRequests form = [] ∧
    ∀ (ts : String) (app : AppState) (outcome : FetchOutcome),
      submitFlow ts form app outcome = app := by
  refine ⟨?_, ?_, ?_⟩ <;> simp [handleSubmit, submittedRequests, submitFlow, h]

/-- Witness for `C2_empty_prompt_no_io` on a whitespace-only prompt. -/
theorem C2_empty_prompt_no_io_witness :
    handleSubmit blankPromptForm = .error .missingPrompt ∧
    submittedRequests blankPromptForm = [] ∧
    submitFlow "10:00:00" blankPromptForm initialAppState (.ok "J1") = initialAppState := by
  have h := C2_empty_prompt_no_io blankPromptForm (by decide)
  exact ⟨h.1, h.2.1, h.2.2 "10:00:00" initialAppState (.ok "J1")⟩

/-! ## C3 — empty site selection: the submitted request's `sites` array -/

/-- C3 (code bug): with a non-empty prompt and no selected sites,
`handleSubmit` schedules the default `["myntra", "meesho"]` for the next
render (per its "Auto-select popular sites if none selected" comment), but
the request it hands to `onSearch` in the same call reads the current
render's binding and therefore carries an empty `sites` array. -/
theorem C3_empty_sites_request_is_empty :
    handleSubmit noSitesForm =
      .ok ({ prompt := "red shirt", sites := [], filters := none },
           { noSitesForm with selectedSites := ["myntra", "meesho"] }) ∧
    submittedRequests noSitesForm = [{ prompt := "red shirt", sites := [], filters := none }] := by
  refine ⟨rfl, by decide⟩

/-! ## C9 — result-bearing messages replace the result set wholesale -/

/-- C9: a message carrying a result list makes the product list equal exactly
that list — independent of the previous result set, so a full replacement,
never a merge — and the appended log delta is the single count-recording
entry, followed by the message's own log lines and the status narration; in
particular exactly one appended entry records the new result count. -/
theorem C9_results_replace_wholesale (ts : String) (st : AppState)
    (msg : WsMessage) (rs : List Product) (h : msg.results = some rs) :
    (onMessage ts st msg).products = rs ∧
    (onMessage ts st msg).logs =
      st.logs ++ [fmtLog ts ("Found " ++ toString rs.length ++ " products")]
        ++ (msg.logs.getD []).map (fmtLog ts)
        ++ (statusNarr msg.status).map (fmtLog ts) := by
  rcases msg with ⟨s?, r?, l?⟩
  simp only [WsMessage.results] at h
  subst h
  cases s? with
  | none =>
      cases l? <;> simp [onMessage, addLog, List.append_assoc]
  | some s =>
      by_cases hs : s = "" <;> cases l? <;>
        simp [onMessage, addLog, hs, List.append_assoc]

/-- Witness for `C9_results_replace_wholesale` on a concrete message carrying
one product, a status and a log line. -/
theorem C9_results_replace_wholesale_witness :
    (onMessage "10:00:00" completedState resultsMsg).products = [sampleProduct] ∧
    (onMessage "10:00:00" completedState resultsMsg).logs =
      completedState.logs
        ++ [fmtLog "10:00:00" ("Found " ++ toString [sampleProduct].length ++ " products")]
        ++ (resultsMsg.logs.getD []).map (fmtLog "10:00:00")
        ++ (statusNarr resultsMsg.status).map (fmtLog "10:00:00") :=
  C9_results_replace_wholesale "10:00:00" completedState resultsMsg [sampleProduct] rfl

/-! ## C10 — submission clears state before I/O; failure does not restore -/

/-- C10: `handleSearch` factors through `preSubmit`, which clears the result
set and log sequence and sets status `pending` before the fetch begins; when
the fetch then fails, the final state keeps the emptied result set, a log
sequence containing only this submission's two lines, and status `failed` —
the pre-submission results and logs are not restored. -/
theorem C10_clear_before_io_no_restore (ts : String) (st : AppState) (emsg : String) :
    (preSubmit ts st).products = [] ∧
    (preSubmit ts st).logs = [fmtLog ts "Starting search..."] ∧
    (preSubmit ts st).jobStatus = "pending" ∧
    (∀ outcome, handleSearch ts st outcome = postFetch ts (preSubmit ts st) outcome) ∧
    handleSearch ts st (.err emsg) =
      { products := [], currentJobId := st.currentJobId, jobStatus := "failed"
        logs := [fmtLog ts "Starting search...", fmtLog ts ("Search failed: " ++ emsg)]
        isConnected := st.isConnected, isLoading := false
        sortField := st.sortField, sortDirection := st.sortDirection } := by
  refine ⟨rfl, rfl, rfl, fun _ => rfl, ?_⟩
  simp [handleSearch, preSubmit, postFetch, addLog]

/-! ## C4 — filtering is a subsequence satisfying every present predicate -/

/-- The filter pipeline is the composition of the four per-key predicate
filters. -/
theorem filterProducts_eq (F : SearchFilters) (R : List Product) :
    filterProducts F R =
      (((R.filter (minPriceOk F)).filter (maxPriceOk F)).filter
        (categoryOk F)).filter (siteOk F) := by
  rcases F with ⟨sz, mat, minp, maxp, minr, col, cat, site⟩
  cases minp <;> cases maxp <;> cases cat <;>
    rcases site with _ | ⟨s | ls⟩ <;>
      simp only [filterProducts] <;>
        (try split_ifs) <;>
          simp_all [List.filter_true, minPriceOk, maxPriceOk, categoryOk, siteOk]

/-- `minPriceOk` as a proposition. -/
theorem minPriceOk_iff (F : SearchFilters) (p : Product) :
    minPriceOk F p = true ↔ ∀ m, F.min_price = some m → m ≤ p.price := by
  cases h : F.min_price <;> simp [minPriceOk, h]

/-- `maxPriceOk` as a proposition. -/
theorem maxPriceOk_iff (F : SearchFilters) (p : Product) :
    maxPriceOk F p = true ↔ ∀ m, F.max_price = some m → p.price ≤ m := by
  cases h : F.max_price <;> simp [maxPriceOk, h]

/-- C4: for every result set `R` and filter set `F`, the filtered list is a
subsequence of `R`; an element is kept iff it independently satisfies each of
the four present predicates (conjunction), so an absent key imposes no
constraint; and the price of every kept element lies within the inclusive
`min_price`/`max_price` bounds whenever those bounds are present. -/
theorem C4_filter_subsequence_conjunction (F : SearchFilters) (R : List Product) :
    (filterProducts F R).Sublist R ∧
    (∀ p, p ∈ filterProducts F R ↔
      p ∈ R ∧ minPriceOk F p = true ∧ maxPriceOk F p = true ∧
        categoryOk F p = true ∧ siteOk F p = true) ∧
    ∀ p ∈ filterProducts F R,
      (∀ m, F.min_price = some m → m ≤ p.price) ∧
      (∀ m, F.max_price = some m → p.price ≤ m) := by
  refine ⟨?_, ?_, ?_⟩
  · rw [filterProducts_eq]
    exact (List.filter_sublist _).trans <| (List.filter_sublist _).trans <|
      (List.filter_sublist _).trans (List.filter_sublist _)
  · intro p
    rw [filterProducts_eq]
    simp only [List.mem_filter]
    tauto
  · intro p hp
    rw [filterProducts_eq] at hp
    simp only [List.mem_filter] at hp
    exact ⟨(minPriceOk_iff F p).mp hp.1.1.1.2, (maxPriceOk_iff F p).mp hp.1.1.2⟩

/-! ## C5 — site-list filtering is the union of single-site filters -/

/-- The query-state filter restricting to a list of sites. -/
def siteListFilters (L : List String) : SearchFilters := { site := some (.many L) }

/-- The query-state filter restricting to a single site value. -/
def singleSiteFilters (s : String) : SearchFilters := { site := some (.one s) }

/-- The empty needle is a substring of everything (`"x".includes("")`). -/
theorem jsIncludes_empty_needle (hay : String) : jsIncludes hay "" = true := by
  refine List.any_eq_true.mpr ⟨0, List.mem_range.mpr (Nat.succ_pos _), ?_⟩
  simp [List.isPrefixOf]

/-- The empty site value matches every product. -/
theorem siteMatch_empty (p : Product) : siteMatch p "" = true :=
  jsIncludes_empty_needle _

/-- Membership in a single-site filter (including the JS-falsy empty string,
which disables the filter but also matches everything). -/
theorem mem_singleSiteFilter (s : String) (R : List Product) (p : Product) :
    p ∈ filterProducts (singleSiteFilters s) R ↔ p ∈ R ∧ siteMatch p s = true := by
  by_cases hs : s = ""
  · subst hs
    simp [filterProducts, singleSiteFilters, siteMatch_empty]
  · simp [filterProducts, singleSiteFilters, hs, List.mem_filter]

/-- C5: filtering on a site list equals, elementwise, the union over the
list's members of the single-site filters (OR semantics). -/
theorem C5_site_list_is_union (L : List String) (R : List Product) (p : Product) :
    p ∈ filterProducts (siteListFilters L) R ↔
      ∃ s ∈ L, p ∈ filterProducts (singleSiteFilters s) R := by
  have hmany : p ∈ filterProducts (siteListFilters L) R ↔
      p ∈ R ∧ ∃ s ∈ L, siteMatch p s = true := by
    simp [filterProducts, siteListFilters, List.mem_filter, List.any_eq_true]
  rw [hmany]
  constructor
  · rintro ⟨hR, s, hsL, hmatch⟩
    exact ⟨s, hsL, (mem_singleSiteFilter s R p).mpr ⟨hR, hmatch⟩⟩
  · rintro ⟨s, hsL, hmem⟩
    obtain ⟨hR, hmatch⟩ := (mem_singleSiteFilter s R p).mp hmem
    exact ⟨hR, s, hsL, hmatch⟩

/-! ## C8 — pagination partitions the list; out-of-range pages are empty -/

/-- For pages numbered from 1, `paginate` is the `k`-th size-`size` chunk. -/
theorem paginate_succ (l : List Product) (size k : Nat) :
    paginate l size (k + 1) = (l.drop (k * size)).take size := by
  have hstart : ((((k : Nat) + 1 : Nat) : Int) - 1) * (size : Int) =
      ((k * size : Nat) : Int) := by push_cast; ring
  simp only [paginate, jsSlice, hstart]
  have h0 : ¬ (((k * size : Nat) : Int) < 0) := by omega
  have h1 : ¬ (((k * size : Nat) : Int) + (size : Int) < 0) := by omega
  simp only [if_neg h0, if_neg h1]
  have hs : (min ((k * size : Nat) : Int) ((l.length : Nat) : Int)).toNat =
      min (k * size) l.length := by
    omega
  have he : (min (((k * size : Nat) : Int) + (size : Int)) ((l.length : Nat) : Int)).toNat =
      min (k * size + size) l.length := by
    omega
  rw [hs, he]
  rcases le_or_lt (k * size) l.length with hle | hlt
  · rw [min_eq_left hle, List.drop_take]
    rcases le_or_lt (k * size + size) l.length with hle2 | hlt2
    · rw [min_eq_left hle2]
      congr 1
      omega
    · rw [min_eq_right (le_of_lt hlt2), List.take_of_length_le (by simp)]
      rw [List.take_of_length_le (by simp; omega)]
  · rw [min_eq_right (le_of_lt hlt), min_eq_right (by omega)]
    rw [List.take_of_length_le (le_refl _), List.drop_eq_nil_of_le (le_refl _)]
    rw [List.drop_eq_nil_of_le (by omega), List.take_nil]

/-- Concatenating the first `n` chunks yields the first `n * size` items. -/
theorem chunks_join (l : List Product) (size : Nat) :
    ∀ n, ((List.range n).map fun k => (l.drop (k * size)).take size).flatten =
      l.take (n * size) := by
  intro n
  induction n with
  | zero => simp
  | succ n ih =>
      rw [List.range_succ, List.map_append, List.flatten_append, ih]
      simp only [List.map_cons, List.map_nil, List.flatten_cons, List.flatten_nil,
        List.append_nil]
      rw [Nat.succ_mul, List.take_add]

/-- The page count covers the whole list. -/
theorem length_le_totalPages_mul (len size : Nat) (hs : 0 < size) :
    len ≤ totalPages len size * size := by
  have h1 := Nat.div_add_mod (len + size - 1) size
  have h2 : (len + size - 1) % size < size := Nat.mod_lt _ hs
  simp only [totalPages]
  rw [Nat.mul_comm]
  omega

/-- C8: for a positive page size, concatenating `paginate` over all valid
page indices (starting at 1) reconstructs the list exactly — no element
duplicated or omitted — and every out-of-range page index (0, or beyond the
last page) yields an empty page rather than an error. -/
theorem C8_pagination_partitions (l : List Product) (size : Nat) (hs : 0 < size) :
    (((List.range (totalPages l.length size)).map fun k =>
        paginate l size (k + 1)).flatten = l) ∧
    (∀ i, totalPages l.length size < i → paginate l size i = []) ∧
    paginate l size 0 = [] := by
  refine ⟨?_, ?_, ?_⟩
  · have hmap : ((List.range (totalPages l.length size)).map fun k =>
        paginate l size (k + 1)) =
        (List.range (totalPages l.length size)).map fun k =>
          (l.drop (k * size)).take size :=
      List.map_congr_left fun k _ => paginate_succ l size k
    rw [hmap, chunks_join]
    exact List.take_of_length_le (length_le_totalPages_mul l.length size hs)
  · intro i hi
    obtain ⟨k, rfl⟩ : ∃ k, i = k + 1 := ⟨i - 1, by omega⟩
    rw [paginate_succ]
    have : l.length ≤ k * size := by
      have := length_le_totalPages_mul l.length size hs
      have hk : totalPages l.length size ≤ k := by omega
      calc l.length ≤ totalPages l.length size * size := this
        _ ≤ k * size := Nat.mul_le_mul_right size hk
    rw [List.drop_eq_nil_of_le this, List.take_nil]
  · have hstop : (((0 : Nat) : Int) - 1) * (size : Int) + (size : Int) = 0 := by
      push_cast
      ring
    simp only [paginate, jsSlice, hstop]
    rw [if_neg (by norm_num : ¬ ((0 : Int) < 0))]
    rw [Int.toNat_eq_zero.mpr (min_le_left _ _)]
    simp

/-! ## Generic lemmas about the stable sort model -/

/-- Inserting permutes: the result is the element consed on the list. -/
theorem insertJS_perm (cmp : α → α → Int) (x : α) (l : List α) :
    List.Perm (insertJS cmp x l) (x :: l) := by
  induction l with
  | nil => exact List.Perm.refl _
  | cons y ys ih =>
      by_cases h : cmp x y < 0
      · simp [insertJS, h]
      · simp only [insertJS, if_neg h]
        exact (ih.cons y).trans (List.Perm.swap x y ys)

/-- The sort driver permutes: the result permutes the accumulator followed by
the input. -/
theorem sortGo_perm (cmp : α → α → Int) (l : List α) :
    ∀ acc : List α, List.Perm (sortGo cmp acc l) (acc ++ l) := by
  induction l with
  | nil => intro acc; simp [sortGo]
  | cons x xs ih =>
      intro acc
      have h1 : sortGo cmp acc (x :: xs) = sortGo cmp (insertJS cmp x acc) xs := rfl
      rw [h1]
      refine (ih (insertJS cmp x acc)).trans ?_
      refine (((insertJS_perm cmp x acc).append_right xs).trans ?_)
      exact List.perm_middle.symm

/-- The stable sort is a permutation of its input. -/
theorem stableSortJS_perm (cmp : α → α → Int) (l : List α) :
    List.Perm (stableSortJS cmp l) l := by
  simpa using sortGo_perm cmp l []

/-- If the comparator never places `x` strictly before any element of `l`,
`x` is inserted at the very end. -/
theorem insertJS_append_last (cmp : α → α → Int) (x : α) (l : List α)
    (h : ∀ y ∈ l, ¬ cmp x y < 0) :
    insertJS cmp x l = l ++ [x] := by
  induction l with
  | nil => rfl
  | cons y ys ih =>
      have hy : ¬ cmp x y < 0 := h y (List.mem_cons_self y ys)
      simp [insertJS, hy, ih fun z hz => h z (List.mem_cons_of_mem y hz)]

/-- If the comparator places `x` strictly before every element of `N`, then
inserting into `A ++ N` inserts into `A`. -/
theorem insertJS_append_of_lt (cmp : α → α → Int) (x : α) (A N : List α)
    (h : ∀ n ∈ N, cmp x n < 0) :
    insertJS cmp x (A ++ N) = insertJS cmp x A ++ N := by
  induction A with
  | nil =>
      cases N with
      | nil => rfl
      | cons n ns => simp [insertJS, h n (List.mem_cons_self n ns)]
  | cons a as ih =>
      by_cases hc : cmp x a < 0 <;> simp [insertJS, hc, ih]

/-- Splitting the sort around a predicate `Pb`: if `Pb`-false elements are
never placed before anything (the comparator sends them last) while
`Pb`-true elements always strictly precede `Pb`-false ones, then sorting
`A ++ N` (sorted-so-far / tail block) processes the `Pb`-true part into `A`
and appends the `Pb`-false elements behind `N` in input order. -/
theorem sortGo_split (cmp : α → α → Int) (Pb : α → Bool)
    (hundef : ∀ x y, Pb x = false → ¬ cmp x y < 0)
    (hdef : ∀ x y, Pb x = true → Pb y = false → cmp x y < 0)
    (l : List α) :
    ∀ A N : List α, (∀ a ∈ A, Pb a = true) → (∀ n ∈ N, Pb n = false) →
      sortGo cmp (A ++ N) l =
        sortGo cmp A (l.filter Pb) ++ N ++ l.filter (fun x => !Pb x) := by
  induction l with
  | nil => intro A N _ _; simp [sortGo]
  | cons x xs ih =>
      intro A N hA hN
      by_cases hx : Pb x = true
      · have hins : insertJS cmp x (A ++ N) = insertJS cmp x A ++ N :=
          insertJS_append_of_lt cmp x A N fun n hn => hdef x n hx (hN n hn)
        have hA' : ∀ a ∈ insertJS cmp x A, Pb a = true := by
          intro a ha
          rcases List.mem_cons.mp ((insertJS_perm cmp x A).mem_iff.mp ha) with rfl | hmem
          · exact hx
          · exact hA a hmem
        have h1 : sortGo cmp (A ++ N) (x :: xs) =
            sortGo cmp (insertJS cmp x A ++ N) xs := by
          rw [← hins]; rfl
        rw [h1, ih (insertJS cmp x A) N hA' hN]
        simp [List.filter_cons, hx]
        rfl
      · have hx' : Pb x = false := by simpa using hx
        have hins : insertJS cmp x (A ++ N) = (A ++ N) ++ [x] :=
          insertJS_append_last cmp x (A ++ N) fun y _ => hundef x y hx'
        have hN' : ∀ n ∈ N ++ [x], Pb n = false := by
          intro n hn
          rcases List.mem_append.mp hn with hn | hn
          · exact hN n hn
          · simp at hn; exact hn ▸ hx'
        have h1 : sortGo cmp (A ++ N) (x :: xs) =
            sortGo cmp (A ++ (N ++ [x])) xs := by
          show sortGo cmp (insertJS cmp x (A ++ N)) xs = _
          rw [hins, List.append_assoc]
        rw [h1, ih A (N ++ [x]) hA hN']
        simp [List.filter_cons, hx']

/-- The stable sort extracts the `Pb`-false elements to the back in input
order and sorts the `Pb`-true elements in front of them. -/
theorem stableSortJS_split (cmp : α → α → Int) (Pb : α → Bool)
    (hundef : ∀ x y, Pb x = false → ¬ cmp x y < 0)
    (hdef : ∀ x y, Pb x = true → Pb y = false → cmp x y < 0)
    (l : List α) :
    stableSortJS cmp l =
      stableSortJS cmp (l.filter Pb) ++ l.filter (fun x => !Pb x) := by
  have h := sortGo_split cmp Pb hundef hdef l [] [] (by simp) (by simp)
  simpa [stableSortJS] using h

/-- Inserting preserves adjacent sortedness, given local totality of the
comparator on a class `Pb` covering all elements involved. -/
theorem insertJS_chain (cmp : α → α → Int) (Pb : α → Bool)
    (htot : ∀ x y, Pb x = true → Pb y = true → ¬ cmp x y < 0 → cmp y x ≤ 0)
    (x : α) (l : List α) (hx : Pb x = true) (hl : ∀ y ∈ l, Pb y = true)
    (hc : List.Chain' (fun a b => cmp a b ≤ 0) l) :
    List.Chain' (fun a b => cmp a b ≤ 0) (insertJS cmp x l) := by
  induction l with
  | nil => simp [insertJS]
  | cons y ys ih =>
      by_cases h : cmp x y < 0
      · simp only [insertJS, if_pos h]
        exact List.chain'_cons.mpr ⟨le_of_lt h, hc⟩
      · simp only [insertJS, if_neg h]
        have hyx : cmp y x ≤ 0 := htot x y hx (hl y (List.mem_cons_self y ys)) h
        have hys : ∀ z ∈ ys, Pb z = true := fun z hz => hl z (List.mem_cons_of_mem y hz)
        have hcys : List.Chain' (fun a b => cmp a b ≤ 0) ys := (List.chain'_cons'.mp hc).2
        refine List.chain'_cons'.mpr ⟨?_, ih hys hcys⟩
        intro w hw
        cases ys with
        | nil =>
            simp [insertJS] at hw
            exact hw ▸ hyx
        | cons z zs =>
            by_cases h2 : cmp x z < 0
            · simp [insertJS, h2] at hw
              exact hw ▸ hyx
            · simp [insertJS, h2] at hw
              exact hw ▸ (List.chain'_cons.mp hc).1

/-- The sort driver produces an adjacently sorted list on a `Pb`-homogeneous
input, given local totality. -/
theorem sortGo_chain (cmp : α → α → Int) (Pb : α → Bool)
    (htot : ∀ x y, Pb x = true → Pb y = true → ¬ cmp x y < 0 → cmp y x ≤ 0)
    (l : List α) :
    ∀ acc : List α, (∀ y ∈ l, Pb y = true) → (∀ y ∈ acc, Pb y = true) →
      List.Chain' (fun a b => cmp a b ≤ 0) acc →
      List.Chain' (fun a b => cmp a b ≤ 0) (sortGo cmp acc l) := by
  induction l with
  | nil => intro acc _ _ hc; exact hc
  | cons x xs ih =>
      intro acc hl hacc hc
      have hx : Pb x = true := hl x (List.mem_cons_self x xs)
      have hxs : ∀ y ∈ xs, Pb y = true := fun y hy => hl y (List.mem_cons_of_mem x hy)
      have hacc' : ∀ y ∈ insertJS cmp x acc, Pb y = true := by
        intro y hy
        rcases List.mem_cons.mp ((insertJS_perm cmp x acc).mem_iff.mp hy) with rfl | hmem
        · exact hx
        · exact hacc y hmem
      exact ih (insertJS cmp x acc) hxs hacc'
        (insertJS_chain cmp Pb htot x acc hx hacc hc)

/-- The stable sort of a `Pb`-homogeneous list is adjacently sorted. -/
theorem stableSortJS_chain (cmp : α → α → Int) (Pb : α → Bool)
    (htot : ∀ x y, Pb x = true → Pb y = true → ¬ cmp x y < 0 → cmp y x ≤ 0)
    (l : List α) (hl : ∀ y ∈ l, Pb y = true) :
    List.Chain' (fun a b => cmp a b ≤ 0) (stableSortJS cmp l) :=
  sortGo_chain cmp Pb htot l [] hl (by simp) (by simp)

/-- Sorting a list whose adjacent pairs the comparator strictly reverses
yields the exact reversal. -/
theorem sortGo_reverse (cmp : α → α → Int) (S : List α) :
    ∀ acc : List α, List.Chain' (fun a b => cmp b a < 0) S →
      (∀ x h, S.head? = some x → acc.head? = some h → cmp x h < 0) →
      sortGo cmp acc S = S.reverse ++ acc := by
  induction S with
  | nil => intro acc _ _; simp [sortGo]
  | cons x xs ih =>
      intro acc hC hha
      have hins : insertJS cmp x acc = x :: acc := by
        cases acc with
        | nil => rfl
        | cons h t => simp [insertJS, hha x h rfl rfl]
      have h1 : sortGo cmp acc (x :: xs) = sortGo cmp (x :: acc) xs := by
        show sortGo cmp (insertJS cmp x acc) xs = _
        rw [hins]
      rw [h1, ih (x :: acc) (List.chain'_cons'.mp hC).2 ?_]
      · simp
      · intro x' h' hx' hh'
        simp at hh'
        exact hh' ▸ (List.chain'_cons'.mp hC).1 x' hx'

/-- Strengthen one adjacency relation into another using a second adjacency
relation and membership. -/
theorem chain'_imp_of_mem {R S T : α → α → Prop} (l : List α)
    (hR : List.Chain' R l) (hS : List.Chain' S l)
    (h : ∀ a ∈ l, ∀ b ∈ l, R a b → S a b → T a b) : List.Chain' T l := by
  induction l with
  | nil => simp
  | cons x xs ih =>
      rw [List.chain'_cons'] at hR hS ⊢
      refine ⟨?_, ih hR.2 hS.2 fun a ha b hb hr hs =>
        h a (List.mem_cons_of_mem x ha) b (List.mem_cons_of_mem x hb) hr hs⟩
      intro y hy
      have hyxs : y ∈ xs := List.mem_of_mem_head? hy
      exact h x (List.mem_cons_self x xs) y (List.mem_cons_of_mem x hyxs)
        (hR.1 y hy) (hS.1 y hy)

/-! ## Lemmas about the comparator -/

/-- `hasField` as a proposition. -/
theorem hasField_iff (f : SortField) (p : Product) :
    hasField f p = true ↔ getField f p ≠ FieldVal.missing := by
  unfold hasField
  cases getField f p <;> simp

/-- A defined optional string field yields a `.str` value. -/
theorem optval_str (o : Option String)
    (h : (o.map FieldVal.str).getD FieldVal.missing ≠ FieldVal.missing) :
    ∃ s, (o.map FieldVal.str).getD FieldVal.missing = FieldVal.str s := by
  cases o <;> simp_all

/-- A defined optional numeric field yields a `.num` value. -/
theorem optval_num (o : Option Int)
    (h : (o.map FieldVal.num).getD FieldVal.missing ≠ FieldVal.missing) :
    ∃ n, (o.map FieldVal.num).getD FieldVal.missing = FieldVal.num n := by
  cases o <;> simp_all

/-- Every product field has a fixed kind: two defined values of the same
field are both strings or both numbers. -/
theorem getField_same_kind (f : SortField) (a b : Product)
    (ha : getField f a ≠ FieldVal.missing) (hb : getField f b ≠ FieldVal.missing) :
    (∃ x y, getField f a = FieldVal.str x ∧ getField f b = FieldVal.str y) ∨
    (∃ x y, getField f a = FieldVal.num x ∧ getField f b = FieldVal.num y) := by
  cases f <;>
    simp only [getField] at ha hb ⊢ <;>
      first
        | exact Or.inl ⟨_, _, rfl, rfl⟩
        | exact Or.inr ⟨_, _, rfl, rfl⟩
        | exact Or.inl ⟨_, _, (optval_str _ ha).choose_spec, (optval_str _ hb).choose_spec⟩
        | exact Or.inr ⟨_, _, (optval_num _ ha).choose_spec, (optval_num _ hb).choose_spec⟩

/-- `localeCompare` is antisymmetric. -/
theorem localeCompare_antisymm (x y : String) :
    localeCompare x y = -(localeCompare y x) := by
  unfold localeCompare
  rcases lt_trichotomy x y with h | h | h
  · simp [h, lt_asymm h]
  · simp [h, lt_irrefl]
  · simp [h, lt_asymm h]

/-- An undefined left value compares as `1` in either direction. -/
theorem jsCompare_undef_left (dir : SortDir) (f : SortField) (a b : Product)
    (ha : hasField f a = false) : jsCompare dir f a b = 1 := by
  have ha' : getField f a = FieldVal.missing := by
    revert ha; unfold hasField; cases getField f a <;> simp
  simp [jsCompare, ha']

/-- A defined-vs-undefined pair compares as `-1` in either direction. -/
theorem jsCompare_undef_right (dir : SortDir) (f : SortField) (a b : Product)
    (ha : hasField f a = true) (hb : hasField f b = false) :
    jsCompare dir f a b = -1 := by
  have ha' : getField f a ≠ FieldVal.missing := (hasField_iff f a).mp ha
  have hb' : getField f b = FieldVal.missing := by
    revert hb; unfold hasField; cases getField f b <;> simp
  simp [jsCompare, ha', hb']

/-- On defined values, the descending comparator is the exact negation of
the ascending one. -/
theorem jsCompare_desc_neg (f : SortField) (a b : Product)
    (ha : getField f a ≠ FieldVal.missing) (hb : getField f b ≠ FieldVal.missing) :
    jsCompare SortDir.desc f a b = -(jsCompare SortDir.asc f a b) := by
  simp [jsCompare, ha, hb]

/-- On defined values, the ascending comparator is antisymmetric. -/
theorem jsCompare_asc_swap (f : SortField) (a b : Product)
    (ha : getField f a ≠ FieldVal.missing) (hb : getField f b ≠ FieldVal.missing) :
    jsCompare SortDir.asc f a b = -(jsCompare SortDir.asc f b a) := by
  simp only [jsCompare, if_neg ha, if_neg hb]
  cases hA : getField f a <;> cases hB : getField f b <;>
    first
      | exact absurd hA ha
      | exact absurd hB hb
      | exact localeCompare_antisymm _ _
      | ring

/-- On defined values with distinct field values, the ascending comparator
is nonzero. -/
theorem jsCompare_asc_ne_zero (f : SortField) (a b : Product)
    (ha : getField f a ≠ FieldVal.missing) (hb : getField f b ≠ FieldVal.missing)
    (hne : getField f a ≠ getField f b) :
    jsCompare SortDir.asc f a b ≠ 0 := by
  rcases getField_same_kind f a b ha hb with ⟨x, y, hx, hy⟩ | ⟨x, y, hx, hy⟩
  · have hxy : x ≠ y := by
      intro hEq; exact hne (by rw [hx, hy, hEq])
    simp only [jsCompare, if_neg ha, if_neg hb, hx, hy]
    unfold localeCompare
    rcases lt_trichotomy x y with h | h | h
    · simp [h]
    · exact absurd h hxy
    · simp [h, lt_asymm h]
  · have hxy : x ≠ y := by
      intro hEq; exact hne (by rw [hx, hy, hEq])
    simp only [jsCompare, if_neg ha, if_neg hb, hx, hy]
    omega


/-- Witness for `C8_pagination_partitions`: three products at page size 2
give two pages that concatenate back to the list, and pages 0 and 5 are
empty. -/
theorem C8_pagination_partitions_witness :
    (((List.range (totalPages ([sampleProduct, sampleProduct, sampleProduct] :
          List Product).length 2)).map fun k =>
        paginate [sampleProduct, sampleProduct, sampleProduct] 2 (k + 1)).flatten =
      [sampleProduct, sampleProduct, sampleProduct]) ∧
    paginate ([sampleProduct, sampleProduct, sampleProduct] : List Product) 2 5 = [] ∧
    paginate ([sampleProduct, sampleProduct, sampleProduct] : List Product) 2 0 = [] := by
  have h := C8_pagination_partitions [sampleProduct, sampleProduct, sampleProduct] 2
    (by decide)
  exact ⟨h.1, h.2.1 5 (by decide), h.2.2⟩

/-! ## C7 — descending comparator versus negated ascending comparator -/

/-- C7 (counterexample): the claim says the descending comparator returns
exactly the negation of the ascending comparator on every pair.  When the
left product's sort field is null, both directions return `1` (the null
short-circuit runs before the direction is applied), so the descending value
is not the negation. -/
theorem C7_null_short_circuit_not_negated :
    jsCompare SortDir.desc SortField.rating unratedProduct ratedProduct = 1 ∧
    -(jsCompare SortDir.asc SortField.rating unratedProduct ratedProduct) = -1 ∧
    jsCompare SortDir.desc SortField.rating unratedProduct ratedProduct ≠
      -(jsCompare SortDir.asc SortField.rating unratedProduct ratedProduct) := by
  refine ⟨by decide, by decide, by decide⟩

/-- C7 (amended): on every pair whose sort-field values are both defined,
the descending comparator returns exactly the negation of the ascending
comparator's value; the null short-circuit (left null → `1`, right null →
`-1`) runs before the direction is applied and is identical in both
directions. -/
theorem C7_desc_negates_asc_when_defined (f : SortField) (a b : Product)
    (ha : hasField f a = true) (hb : hasField f b = true) :
    jsCompare SortDir.desc f a b = -(jsCompare SortDir.asc f a b) :=
  jsCompare_desc_neg f a b ((hasField_iff f a).mp ha) ((hasField_iff f b).mp hb)

/-- Witness for `C7_desc_negates_asc_when_defined` on two priced products. -/
theorem C7_desc_negates_asc_when_defined_witness :
    jsCompare SortDir.desc SortField.price unratedProduct ratedProduct =
      -(jsCompare SortDir.asc SortField.price unratedProduct ratedProduct) :=
  C7_desc_negates_asc_when_defined SortField.price unratedProduct ratedProduct
    (by decide) (by decide)

/-! ## C6 — descending-after-ascending reverses the defined run -/

/-- C6 (counterexample): with a price tie, the stable sort keeps the tied
products in their original relative order in both directions, so the
descending pass does not reverse the defined run. -/
theorem C6_tie_not_reversed : ¬ claimC6 SortField.price [tieProduct1, tieProduct2] := by
  unfold claimC6 sortProducts definedRun undefRun
  decide

/-- C6 (amended): whenever the defined sort-field values occurring in `R`
are pairwise distinct, sorting ascending and then sorting that result
descending reverses exactly the run of products whose field is defined,
while the null-field products stay at the end in both directions. -/
theorem C6_desc_after_asc_reverses_defined_run (f : SortField) (R : List Product)
    (hnd : ((definedRun f R).map (getField f)).Nodup) :
    claimC6 f R := by
  have hundefA : ∀ x y : Product, hasField f x = false →
      ¬ jsCompare SortDir.asc f x y < 0 := by
    intro x y hx
    rw [jsCompare_undef_left SortDir.asc f x y hx]
    decide
  have hdefA : ∀ x y : Product, hasField f x = true → hasField f y = false →
      jsCompare SortDir.asc f x y < 0 := by
    intro x y hx hy
    rw [jsCompare_undef_right SortDir.asc f x y hx hy]
    decide
  have hundefD : ∀ x y : Product, hasField f x = false →
      ¬ jsCompare SortDir.desc f x y < 0 := by
    intro x y hx
    rw [jsCompare_undef_left SortDir.desc f x y hx]
    decide
  have hdefD : ∀ x y : Product, hasField f x = true → hasField f y = false →
      jsCompare SortDir.desc f x y < 0 := by
    intro x y hx hy
    rw [jsCompare_undef_right SortDir.desc f x y hx hy]
    decide
  set SA := stableSortJS (jsCompare SortDir.asc f) (R.filter (hasField f)) with hSAdef
  set NR := R.filter (fun p => !(hasField f p)) with hNRdef
  have hsplitA : stableSortJS (jsCompare SortDir.asc f) R = SA ++ NR :=
    stableSortJS_split _ (hasField f) hundefA hdefA R
  have hSAmem : ∀ x ∈ SA, hasField f x = true := by
    intro x hx
    have hx' := (stableSortJS_perm (jsCompare SortDir.asc f)
      (R.filter (hasField f))).mem_iff.mp hx
    exact (List.mem_filter.mp hx').2
  have hNRmem : ∀ x ∈ NR, hasField f x = false := by
    intro x hx
    have := (List.mem_filter.mp hx).2
    simpa using this
  have hfil1 : (SA ++ NR).filter (hasField f) = SA := by
    rw [List.filter_append, List.filter_eq_self.mpr hSAmem]
    have : NR.filter (hasField f) = [] := by
      rw [List.filter_eq_nil_iff]
      intro a ha
      simp [hNRmem a ha]
    rw [this, List.append_nil]
  have hfil2 : (SA ++ NR).filter (fun p => !(hasField f p)) = NR := by
    rw [List.filter_append]
    have h1 : SA.filter (fun p => !(hasField f p)) = [] := by
      rw [List.filter_eq_nil_iff]
      intro a ha
      simp [hSAmem a ha]
    have h2 : NR.filter (fun p => !(hasField f p)) = NR := by
      rw [List.filter_eq_self]
      intro a ha
      simp [hNRmem a ha]
    rw [h1, h2, List.nil_append]
  have htot : ∀ x y : Product, hasField f x = true → hasField f y = true →
      ¬ jsCompare SortDir.asc f x y < 0 → jsCompare SortDir.asc f y x ≤ 0 := by
    intro x y hx hy h
    have hswap := jsCompare_asc_swap f x y ((hasField_iff f x).mp hx)
      ((hasField_iff f y).mp hy)
    omega
  have hchainA : List.Chain' (fun a b => jsCompare SortDir.asc f a b ≤ 0) SA :=
    stableSortJS_chain _ (hasField f) htot _ fun y hy => (List.mem_filter.mp hy).2
  have hSAperm : List.Perm SA (definedRun f R) :=
    stableSortJS_perm (jsCompare SortDir.asc f) (R.filter (hasField f))
  have hnodup : (SA.map (getField f)).Nodup :=
    ((hSAperm.map (getField f)).nodup_iff).mpr hnd
  have hpairne : List.Chain' (fun a b => getField f a ≠ getField f b) SA :=
    (List.pairwise_map.mp hnodup).chain'
  have hchainD : List.Chain' (fun a b => jsCompare SortDir.desc f b a < 0) SA := by
    apply chain'_imp_of_mem SA hchainA hpairne
    intro a ha b hb hle hne
    have ha' := (hasField_iff f a).mp (hSAmem a ha)
    have hb' := (hasField_iff f b).mp (hSAmem b hb)
    have h1 : jsCompare SortDir.asc f a b ≠ 0 := jsCompare_asc_ne_zero f a b ha' hb' hne
    have h2 := jsCompare_asc_swap f a b ha' hb'
    have h3 := jsCompare_desc_neg f b a hb' ha'
    omega
  have hrev : stableSortJS (jsCompare SortDir.desc f) SA = SA.reverse := by
    have h := sortGo_reverse (jsCompare SortDir.desc f) SA [] hchainD ?_
    · simpa [stableSortJS] using h
    · intro x h hx hh
      simp at hh
  simp only [claimC6, sortProducts]
  rw [hsplitA]
  rw [stableSortJS_split _ (hasField f) hundefD hdefD (SA ++ NR)]
  rw [hfil1, hfil2, hrev]
  unfold definedRun undefRun
  rw [hfil1, hfil2]

/-- Witness for `C6_desc_after_asc_reverses_defined_run` on a list with two
distinct prices and one unrated product (defined run `[price 1, price 2]`,
reversed to `[price 2, price 1]`). -/
theorem C6_desc_after_asc_reverses_defined_run_witness :
    claimC6 SortField.price [ratedProduct, unratedProduct] :=
  C6_desc_after_asc_reverses_defined_run SortField.price
    [ratedProduct, unratedProduct] (by decide)


end ShoppingComparator
